import Mathlib

/-!
Verification of the analysis engine of the codebase-cartographer repository
(source file: code_auditor.py, class CodebaseAuditor).

The Python source is shallowly embedded: the statement-level abstract syntax
tree that the auditor inspects is modelled by the mutual inductives Node and
NodeList below; the auditor's mutable attributes (python_files,
project_modules, functions, classes, main_entry_points, dependencies,
data_files) are modelled by the structure Store, and each method becomes a
pure function on Store.  Python dict and set semantics are modelled by
association lists with overwrite-in-place insertion (dicts keep the original
insertion position on overwrite) and duplicate-free append (sets).

A note on traversal order: Python's ast.walk enumerates a subtree in
breadth-first order, while the embedded walk below enumerates it depth-first.
Both enumerate exactly the same multiset of nodes, and every fact proved in
this development is insensitive to the enumeration order (counts, membership,
and lookups whose inserted values agree across colliding keys).
-/

/-- Substring containment on lists of characters: some drop of the haystack
has the needle as a prefix.  This models the Python expression
needle in haystack for a non-empty needle. -/
def charsContain (hay needle : List Char) : Bool :=
  (List.range (hay.length + 1)).any fun i => needle.isPrefixOf (hay.drop i)

/-- Python substring test s2 in s1, on the underlying character lists. -/
def containsSubstr (hay needle : String) : Bool :=
  charsContain hay.toList needle.toList

/-- Python s1.startswith s2, on the underlying character lists. -/
def strStartsWith (s pre : String) : Bool :=
  pre.toList.isPrefixOf s.toList

/-- Python s1.endswith s2, on the underlying character lists. -/
def strEndsWith (s suf : String) : Bool :=
  suf.toList.isSuffixOf s.toList

/-- Splitting a character list at a separator character, matching Python's
str.split with a one-character separator: the empty string splits to one
empty piece, and separators at the ends produce empty pieces. -/
def splitOnChar (c : Char) : List Char → List (List Char)
  | [] => [[]]
  | x :: xs =>
    match splitOnChar c xs with
    | [] => [[]]
    | piece :: rest =>
      if x = c then [] :: piece :: rest else (x :: piece) :: rest

/-- Python module_name.split with separator dot. -/
def splitDots (s : String) : List String :=
  (splitOnChar '.' s.toList).map List.asString

/-- Python dot.join of a list of strings. -/
def joinDots (l : List String) : String :=
  String.intercalate "." l

/-- Embeds the module-name derivation of code_auditor.py lines 94 and 102-103:
the path relative to the root has its separators replaced by dots and the
final three characters (the source extension) cut off. -/
def pathToModule (p : String) : String :=
  let cs := p.toList.map fun c => if c = '/' then '.' else c
  List.asString (cs.take (cs.length - 3))

mutual
/-- Statement-level Python abstract syntax, covering exactly the node kinds
code_auditor.py inspects (FunctionDef, ClassDef, If, For, While, Try, With,
Import, ImportFrom) plus opaque statements.  Expression children are omitted:
no statement can occur inside a Python expression, so they contain none of
the inspected node kinds. -/
inductive Node where
  | module (body : NodeList)
  | funcDef (name : String) (body : NodeList)
  | classDef (name : String) (body : NodeList)
  | ifStmt (body orelse : NodeList)
  | forStmt (body orelse : NodeList)
  | whileStmt (body orelse : NodeList)
  | tryStmt (body handlers orelse finalbody : NodeList)
  | exceptHandler (body : NodeList)
  | withStmt (body : NodeList)
  | importStmt (names : List String)
  | importFrom (mod : Option String) (names : List String) (level : Nat)
  | passStmt
  | otherStmt
/-- A list of statements (kept mutual with Node rather than nested, so that
structural recursion over the tree is available). -/
inductive NodeList where
  | nil
  | cons (hd : Node) (tl : NodeList)
end

/-- Converts a Lean list of nodes into a NodeList, for readable examples. -/
def NodeList.ofList : List Node → NodeList
  | [] => .nil
  | n :: ns => .cons n (NodeList.ofList ns)

mutual
/-- All nodes of a subtree, the root included; the embedded counterpart of
ast.walk (same nodes, depth-first instead of breadth-first order). -/
def Node.walk : Node → List Node
  | .module b => Node.module b :: b.walkList
  | .funcDef nm b => Node.funcDef nm b :: b.walkList
  | .classDef nm b => Node.classDef nm b :: b.walkList
  | .ifStmt b o => Node.ifStmt b o :: (b.walkList ++ o.walkList)
  | .forStmt b o => Node.forStmt b o :: (b.walkList ++ o.walkList)
  | .whileStmt b o => Node.whileStmt b o :: (b.walkList ++ o.walkList)
  | .tryStmt b h o f =>
      Node.tryStmt b h o f :: (b.walkList ++ h.walkList ++ o.walkList ++ f.walkList)
  | .exceptHandler b => Node.exceptHandler b :: b.walkList
  | .withStmt b => Node.withStmt b :: b.walkList
  | .importStmt ns => [Node.importStmt ns]
  | .importFrom m ns l => [Node.importFrom m ns l]
  | .passStmt => [Node.passStmt]
  | .otherStmt => [Node.otherStmt]
/-- All nodes of the subtrees of a statement list, in order. -/
def NodeList.walkList : NodeList → List Node
  | .nil => []
  | .cons n ns => n.walk ++ ns.walkList
end

/-- The isinstance test of code_auditor.py line 117: conditional, for-loop,
while-loop, try and with nodes. -/
def isBranch : Node → Bool
  | .ifStmt _ _ => true
  | .forStmt _ _ => true
  | .whileStmt _ _ => true
  | .tryStmt _ _ _ _ => true
  | .withStmt _ => true
  | _ => false

/-- Embeds the complexity expression of code_auditor.py line 117: one plus
the number of branch-kind nodes anywhere in the walked subtree. -/
def complexity (n : Node) : Nat :=
  ((Node.walk n).filter isBranch).length + 1

/-- The per-class record of code_auditor.py line 122: the immediate method
names and the strategy flag. -/
structure ClassInfo where
  methods : List String
  is_strategy : Bool
deriving DecidableEq, Repr

/-- The mutable attributes of class CodebaseAuditor (lines 77-83):
python_files, project_modules (a set), functions and classes (dicts keyed by
dotted name), main_entry_points, dependencies (a dict of sets), data_files. -/
structure Store where
  python_files : List String
  project_modules : List String
  functions : List (String × Nat)
  classes : List (String × ClassInfo)
  main_entry_points : List String
  dependencies : List (String × List String)
  data_files : List String
deriving DecidableEq, Repr

/-- The empty store a fresh CodebaseAuditor starts from. -/
def emptyStore : Store :=
  { python_files := [], project_modules := [], functions := [], classes := [],
    main_entry_points := [], dependencies := [], data_files := [] }

/-- Python set.add: append the element unless already present. -/
def setInsert (xs : List String) (x : String) : List String :=
  if xs.contains x then xs else xs ++ [x]

/-- Python dict assignment d[k] = v: overwrite the binding in place when the
key is present (keys are unique in a Python dict, so replacing the first
match is exact), or append a new binding at the end. -/
def dictInsert {α : Type} (m : List (String × α)) (k : String) (v : α) :
    List (String × α) :=
  match m with
  | [] => [(k, v)]
  | p :: rest => if p.1 == k then (k, v) :: rest else p :: dictInsert rest k v

/-- Python dict lookup d.get k. -/
def dictLookup {α : Type} (m : List (String × α)) (k : String) : Option α :=
  (m.find? fun p => p.1 == k).map Prod.snd

/-- Python defaultdict-of-set update d[m].add x: extend the set bound to the
key when present (keys are unique, so the first match is exact), or append a
fresh singleton-set binding at the end. -/
def depAdd (deps : List (String × List String)) (m x : String) :
    List (String × List String) :=
  match deps with
  | [] => [(m, [x])]
  | p :: rest =>
    if p.1 == m then (m, setInsert p.2 x) :: rest else p :: depAdd rest m x

/-- Whether the dependency map records an edge a to b. -/
def hasEdge (st : Store) (a b : String) : Bool :=
  match dictLookup st.dependencies a with
  | some ds => ds.contains b
  | none => false

/-- Embeds the resolution arithmetic of _add_dependency (lines 132-137):
for a positive relative level, drop the last level segments of the source
module and join the remainder with the target when the target is non-empty;
for level zero the target is used verbatim. -/
def resolveTarget (module_name dep_name : String) (level : Nat) : String :=
  if level > 0 then
    let parts := splitDots module_name
    let base := parts.take (parts.length - level)
    joinDots (base ++ (if dep_name == "" then [] else [dep_name]))
  else dep_name

/-- Embeds _add_dependency (lines 131-140): resolve the target, then record
the edge exactly when some known project module passes the conjunctive check
of line 139 (equality with the resolved name, and the resolved name starting
with it). -/
def Store.addDependency (st : Store) (module_name dep_name : String)
    (level : Nat) : Store :=
  let resolved := resolveTarget module_name dep_name level
  if st.project_modules.any fun pm => pm == resolved && strStartsWith resolved pm then
    { st with dependencies := depAdd st.dependencies module_name resolved }
  else st

/-- The method-name comprehension of line 121: names of the immediate body
entries that are function definitions. -/
def NodeList.methodNames : NodeList → List String
  | .nil => []
  | .cons (.funcDef nm _) tl => nm :: tl.methodNames
  | .cons _ tl => tl.methodNames

/-- ASCII lowercase on a single character, the case folding Python's
str.lower performs on the letters the strategy heuristic inspects. -/
def charLower (c : Char) : Char :=
  if c = 'A' then 'a' else if c = 'B' then 'b' else if c = 'C' then 'c'
  else if c = 'D' then 'd' else if c = 'E' then 'e' else if c = 'F' then 'f'
  else if c = 'G' then 'g' else if c = 'H' then 'h' else if c = 'I' then 'i'
  else if c = 'J' then 'j' else if c = 'K' then 'k' else if c = 'L' then 'l'
  else if c = 'M' then 'm' else if c = 'N' then 'n' else if c = 'O' then 'o'
  else if c = 'P' then 'p' else if c = 'Q' then 'q' else if c = 'R' then 'r'
  else if c = 'S' then 's' else if c = 'T' then 't' else if c = 'U' then 'u'
  else if c = 'V' then 'v' else if c = 'W' then 'w' else if c = 'X' then 'x'
  else if c = 'Y' then 'y' else if c = 'Z' then 'z' else c

/-- Python str.lower, character by character. -/
def strToLower (s : String) : String := List.asString (s.toList.map charLower)

/-- The strategy test of line 122: the lowercased class name contains the
substring strategy, or the module name contains the substring strategies. -/
def isStrategyName (name module_name : String) : Bool :=
  containsSubstr (strToLower name) "strategy" || containsSubstr module_name "strategies"

/-- Embeds the per-node dispatch of the walk loop in _analyze_file
(lines 113-126): function definitions record a complexity entry, class
definitions record a ClassInfo, plain imports resolve each alias at level
zero, and from-imports resolve their module text at their level only when
that module text is present.  Any other node kind is ignored. -/
def Store.processNode (st : Store) (module_name : String) : Node → Store
  | .funcDef nm b =>
      let fns := dictInsert st.functions (module_name ++ "." ++ nm)
        (complexity (Node.funcDef nm b))
      { st with functions := fns }
  | .classDef nm b =>
      let cls := dictInsert st.classes (module_name ++ "." ++ nm)
        ⟨b.methodNames, isStrategyName nm module_name⟩
      { st with classes := cls }
  | .importStmt ns =>
      ns.foldl (fun s a => s.addDependency module_name a 0) st
  | .importFrom m _ l =>
      match m with
      | some dep => st.addDependency module_name dep l
      | none => st
  | _ => st

/-- The literal execution-guard string of line 110. -/
def entryGuard : String := "if __name__ == \"__main__\""

/-- Embeds _analyze_file (lines 99-129).  The parse outcome is passed in as
an Option: none models the except-branch (unreadable or unparseable file),
in which the store is left untouched.  On success, the raw text is first
tested (inside the try, after the parse) for the execution guard, and then
every node of the tree walk is dispatched. -/
def Store.analyzeFile (st : Store) (path content : String)
    (parsed : Option Node) : Store :=
  let module_name := pathToModule path
  match parsed with
  | none => st
  | some tree =>
      let st1 :=
        if containsSubstr content entryGuard then
          { st with main_entry_points := st.main_entry_points ++ [module_name] }
        else st
      (Node.walk tree).foldl (fun s n => s.processNode module_name n) st1

/-- One filesystem entry handed to the engine: the root-relative path (with
forward-slash separators), the raw text, and the parse outcome (none when
reading or parsing the file would fail). -/
structure Entry where
  path : String
  content : String
  parsed : Option Node

/-- Whether a path has the Python source extension (line 92). -/
def isPyFile (p : String) : Bool := strEndsWith p ".py"

/-- Whether a path has one of the recognized data extensions (line 96). -/
def isDataFile (p : String) : Bool :=
  strEndsWith p ".csv" || strEndsWith p ".xlsx" ||
  strEndsWith p ".json" || strEndsWith p ".yaml"

/-- Embeds _discover_files (lines 85-97) over the list of files the
directory walk yields (pruned directories already excluded): source files
are appended to python_files and their module name added to the module set;
otherwise recognized data files are appended to data_files. -/
def Store.discover (st : Store) (es : List Entry) : Store :=
  es.foldl
    (fun s e =>
      if isPyFile e.path then
        { s with python_files := s.python_files ++ [e.path],
                 project_modules := setInsert s.project_modules (pathToModule e.path) }
      else if isDataFile e.path then
        { s with data_files := s.data_files ++ [e.path] }
      else s)
    st

/-- Embeds the run method's analysis pass (lines 264-274): discover every
file, then analyze each discovered Python file in order. -/
def runAudit (es : List Entry) : Store :=
  let st := Store.discover emptyStore es
  (es.filter fun e => isPyFile e.path).foldl
    (fun s e => s.analyzeFile e.path e.content e.parsed) st

/-- Embeds the data-file classification of generate_data_flow (line 189),
applied to the file name: a chained substring test trying csv, then xlsx,
then yaml, with the JSON label as the fallback. -/
def dataFileKind (name : String) : String :=
  if containsSubstr name ".csv" then "Tabular Data"
  else if containsSubstr name ".xlsx" then "Excel Sheet"
  else if containsSubstr name ".yaml" then "Config"
  else "JSON Data"

/-- Embeds the average-complexity expression of generate_summary_stats
(line 250), with rationals in place of Python floats: the sum of the
recorded complexities divided by their number when there is at least one
function, and zero otherwise. -/
def avgComplexity (st : Store) : ℚ :=
  if st.functions.length > 0 then
    ((st.functions.map fun p => (p.2 : ℚ)).sum) / (st.functions.length : ℚ)
  else 0

/-! ## Specification-side definitions

The following definitions restate, in the specification's own words, the
quantities the claims compare against the embedded code; each is used to
settle one claim by comparison with the corresponding embedded function. -/

mutual
/-- Specification-side count for the complexity contract: the number of
conditional, for-loop, while-loop, exception-handling and scoped-resource
nodes anywhere in a subtree, the nested function and class bodies included. -/
def branchTotal : Node → Nat
  | .module b => b.branchTotalList
  | .funcDef _ b => b.branchTotalList
  | .classDef _ b => b.branchTotalList
  | .ifStmt b o => 1 + (b.branchTotalList + o.branchTotalList)
  | .forStmt b o => 1 + (b.branchTotalList + o.branchTotalList)
  | .whileStmt b o => 1 + (b.branchTotalList + o.branchTotalList)
  | .tryStmt b h o f =>
      1 + (b.branchTotalList + (h.branchTotalList + (o.branchTotalList + f.branchTotalList)))
  | .exceptHandler b => b.branchTotalList
  | .withStmt b => 1 + b.branchTotalList
  | .importStmt _ => 0
  | .importFrom _ _ _ => 0
  | .passStmt => 0
  | .otherStmt => 0
/-- Specification-side count over a statement list. -/
def NodeList.branchTotalList : NodeList → Nat
  | .nil => 0
  | .cons n ns => branchTotal n + ns.branchTotalList
end

/-- Specification-side strategy test, following the claim's words: the class
name contains the case-insensitive substring strategy or strategies, or the
module's dotted path contains strategies as a path component. -/
def specIsStrategy (name module_name : String) : Bool :=
  containsSubstr (strToLower name) "strategy" || containsSubstr (strToLower name) "strategies" ||
    (splitDots module_name).contains "strategies"

/-- Specification-side data-file classification, following the claim's
priority order: tabular, then spreadsheet, then structured-data, then
config. -/
def specDataFileKind (name : String) : String :=
  if containsSubstr name ".csv" then "Tabular Data"
  else if containsSubstr name ".xlsx" then "Excel Sheet"
  else if containsSubstr name ".json" then "JSON Data"
  else "Config"

/-- Specification-side variant of the pass in which the files that failed to
parse are dropped from the analysis loop altogether (they still take part in
discovery); compared with runAudit to show parse failures are non-fatal and
contribute nothing. -/
def runAuditParsedOnly (es : List Entry) : Store :=
  let st := Store.discover emptyStore es
  ((es.filter fun e => isPyFile e.path).filter fun e => e.parsed.isSome).foldl
    (fun s e => s.analyzeFile e.path e.content e.parsed) st

/-- Recognizer for function-definition nodes, used to count them. -/
def isFuncDef : Node → Bool
  | .funcDef _ _ => true
  | _ => false

/-- The parsed tree of the scenario file pkg/a.py, whose text is
def f() with body if True: pass on an indented line. -/
def scenarioATree : Node :=
  Node.module (NodeList.ofList [Node.funcDef "f" (NodeList.ofList
    [Node.ifStmt (NodeList.ofList [Node.passStmt]) (NodeList.ofList [])])])

/-- The parsed tree of the scenario file pkg/b.py, whose text is the single
relative import of a from the current package (level one, no module text). -/
def scenarioBTree : Node :=
  Node.module (NodeList.ofList [Node.importFrom none ["a"] 1])

/-- The two-file project of the claimed scenario: pkg/a.py defining f with a
single conditional, and pkg/b.py importing a relatively. -/
def scenarioC1 : List Entry :=
  [ { path := "pkg/a.py", content := "def f():\n    if True: pass\n",
      parsed := some scenarioATree },
    { path := "pkg/b.py", content := "from . import a\n",
      parsed := some scenarioBTree } ]

/-! ## Helper lemmas -/

/-- Recording a dependency changes only the dependency map. -/
theorem addDependency_shape (st : Store) (m d : String) (l : Nat) :
    ∃ dd, st.addDependency m d l = { st with dependencies := dd } := by
  simp only [Store.addDependency]
  split
  · exact ⟨_, rfl⟩
  · exact ⟨st.dependencies, rfl⟩

/-- Resolving each alias of a plain import changes only the dependency map. -/
theorem foldlAddDep_shape (m : String) (ns : List String) :
    ∀ st : Store, ∃ dd,
      ns.foldl (fun s a => s.addDependency m a 0) st = { st with dependencies := dd } := by
  induction ns with
  | nil => exact fun st => ⟨st.dependencies, rfl⟩
  | cons a rest ih =>
    intro st
    obtain ⟨d1, h1⟩ := addDependency_shape st m a 0
    obtain ⟨d2, h2⟩ := ih (st.addDependency m a 0)
    exact ⟨d2, by rw [List.foldl_cons, h2, h1]⟩

/-- Dispatching one node changes only the function map, the class map and
the dependency map. -/
theorem processNode_shape (st : Store) (m : String) (n : Node) :
    ∃ f c dd, st.processNode m n =
      { st with functions := f, classes := c, dependencies := dd } := by
  cases n with
  | funcDef nm b => exact ⟨_, st.classes, st.dependencies, rfl⟩
  | classDef nm b => exact ⟨st.functions, _, st.dependencies, rfl⟩
  | importStmt ns =>
    obtain ⟨dd, h⟩ := foldlAddDep_shape m ns st
    exact ⟨st.functions, st.classes, dd, h⟩
  | importFrom mo ns l =>
    cases mo with
    | none => exact ⟨st.functions, st.classes, st.dependencies, rfl⟩
    | some dep =>
      obtain ⟨dd, h⟩ := addDependency_shape st m dep l
      exact ⟨st.functions, st.classes, dd, h⟩
  | module b => exact ⟨st.functions, st.classes, st.dependencies, rfl⟩
  | ifStmt b o => exact ⟨st.functions, st.classes, st.dependencies, rfl⟩
  | forStmt b o => exact ⟨st.functions, st.classes, st.dependencies, rfl⟩
  | whileStmt b o => exact ⟨st.functions, st.classes, st.dependencies, rfl⟩
  | tryStmt b h o f => exact ⟨st.functions, st.classes, st.dependencies, rfl⟩
  | exceptHandler b => exact ⟨st.functions, st.classes, st.dependencies, rfl⟩
  | withStmt b => exact ⟨st.functions, st.classes, st.dependencies, rfl⟩
  | passStmt => exact ⟨st.functions, st.classes, st.dependencies, rfl⟩
  | otherStmt => exact ⟨st.functions, st.classes, st.dependencies, rfl⟩

/-- Dispatching a list of nodes changes only the function map, the class map
and the dependency map. -/
theorem foldlProcess_shape (m : String) (ns : List Node) :
    ∀ st : Store, ∃ f c dd,
      ns.foldl (fun s n => s.processNode m n) st =
        { st with functions := f, classes := c, dependencies := dd } := by
  induction ns with
  | nil => exact fun st => ⟨st.functions, st.classes, st.dependencies, rfl⟩
  | cons n rest ih =>
    intro st
    obtain ⟨f1, c1, d1, h1⟩ := processNode_shape st m n
    obtain ⟨f2, c2, d2, h2⟩ := ih (st.processNode m n)
    exact ⟨f2, c2, d2, by rw [List.foldl_cons, h2, h1]⟩

/-- Analyzing one file changes only the function map, the class map, the
dependency map and the entry-point list. -/
theorem analyzeFile_shape (st : Store) (p ct : String) (pr : Option Node) :
    ∃ f c dd ep, st.analyzeFile p ct pr =
      { st with functions := f, classes := c, dependencies := dd,
                main_entry_points := ep } := by
  cases pr with
  | none =>
    exact ⟨st.functions, st.classes, st.dependencies, st.main_entry_points, rfl⟩
  | some tree =>
    unfold Store.analyzeFile
    by_cases hg : containsSubstr ct entryGuard = true
    · obtain ⟨f, c, dd, h⟩ := foldlProcess_shape (pathToModule p) (Node.walk tree)
        { st with main_entry_points := st.main_entry_points ++ [pathToModule p] }
      exact ⟨f, c, dd, st.main_entry_points ++ [pathToModule p], by simp only [hg, if_true]; exact h⟩
    · obtain ⟨f, c, dd, h⟩ := foldlProcess_shape (pathToModule p) (Node.walk tree) st
      exact ⟨f, c, dd, st.main_entry_points, by simp only [hg, if_false]; exact h⟩

/-- The whole analysis loop changes only the function map, the class map,
the dependency map and the entry-point list. -/
theorem foldlAnalyze_shape (es : List Entry) :
    ∀ st : Store, ∃ f c dd ep,
      es.foldl (fun s e => s.analyzeFile e.path e.content e.parsed) st =
        { st with functions := f, classes := c, dependencies := dd,
                  main_entry_points := ep } := by
  induction es with
  | nil =>
    exact fun st => ⟨st.functions, st.classes, st.dependencies, st.main_entry_points, rfl⟩
  | cons e rest ih =>
    intro st
    obtain ⟨f1, c1, d1, e1, h1⟩ := analyzeFile_shape st e.path e.content e.parsed
    obtain ⟨f2, c2, d2, e2, h2⟩ := ih (st.analyzeFile e.path e.content e.parsed)
    exact ⟨f2, c2, d2, e2, by rw [List.foldl_cons, h2, h1]⟩

/-- Unfolding a dict lookup over a matching head binding. -/
theorem dictLookup_cons_eq {α : Type} (p : String × α) (rest : List (String × α))
    (a : String) (h : p.1 = a) : dictLookup (p :: rest) a = some p.2 := by
  unfold dictLookup
  rw [List.find?_cons_of_pos _ (by simpa [beq_iff_eq] using h)]
  rfl

/-- Unfolding a dict lookup over a non-matching head binding. -/
theorem dictLookup_cons_ne {α : Type} (p : String × α) (rest : List (String × α))
    (a : String) (h : ¬ p.1 = a) : dictLookup (p :: rest) a = dictLookup rest a := by
  unfold dictLookup
  rw [List.find?_cons_of_neg _ (by simpa [beq_iff_eq] using h)]

/-- Looking up in a dict after a Python-style assignment: the assigned key
maps to the assigned value, every other key is unchanged. -/
theorem dictLookup_dictInsert {α : Type} (m : List (String × α)) (k : String)
    (v : α) (a : String) :
    dictLookup (dictInsert m k v) a = if a = k then some v else dictLookup m a := by
  induction m with
  | nil =>
    by_cases hak : a = k
    · rw [if_pos hak]
      unfold dictInsert
      exact dictLookup_cons_eq (k, v) [] a hak.symm
    · rw [if_neg hak]
      unfold dictInsert
      rw [dictLookup_cons_ne (k, v) [] a fun h => hak h.symm]
  | cons p rest ih =>
    unfold dictInsert
    by_cases hpk : p.1 = k
    · rw [if_pos (by simpa [beq_iff_eq] using hpk)]
      by_cases hak : a = k
      · rw [if_pos hak, dictLookup_cons_eq (k, v) rest a hak.symm]
      · rw [if_neg hak, dictLookup_cons_ne (k, v) rest a fun h => hak h.symm,
          dictLookup_cons_ne p rest a fun h => hak ((hpk ▸ h : (k : String) = a)).symm]
    · rw [if_neg (by simpa [beq_iff_eq] using hpk)]
      by_cases hpa : p.1 = a
      · have hak : ¬ a = k := fun h => hpk (hpa.trans h)
        rw [if_neg hak, dictLookup_cons_eq p _ a hpa, dictLookup_cons_eq p rest a hpa]
      · rw [dictLookup_cons_ne p _ a hpa, dictLookup_cons_ne p rest a hpa]
        exact ih

/-- Membership after a Python set.add: the element just added and everything
already present. -/
theorem setInsert_contains (xs : List String) (x y : String) :
    (setInsert xs x).contains y = (xs.contains y || y == x) := by
  unfold setInsert
  by_cases hx : xs.contains x = true
  · rw [if_pos hx]
    by_cases hyx : y = x
    · subst hyx
      have hb : (y == y) = true := by simp
      rw [hb, Bool.or_true, hx]
    · have hb : (y == x) = false := by simpa [beq_iff_eq] using hyx
      rw [hb, Bool.or_false]
  · rw [if_neg hx]
    have hb : (y == x) = decide (y = x) := by
      by_cases h : y = x <;> simp [h]
    simp [List.contains_eq_any_beq, List.any_append, hb]

/-- Membership after a Python set.add, in propositional form. -/
theorem setInsert_mem (xs : List String) (x y : String) :
    y ∈ setInsert xs x ↔ y ∈ xs ∨ y = x := by
  unfold setInsert
  by_cases hx : xs.contains x = true
  · rw [if_pos hx]
    constructor
    · exact fun h => Or.inl h
    · intro h
      rcases h with h | h
      · exact h
      · exact h ▸ List.elem_iff.mp hx
  · rw [if_neg hx]
    simp [List.mem_append]

/-- Looking up in the dependency map after a defaultdict-of-set update: the
updated key maps to its old set extended with the new element (or to the
fresh singleton), every other key is unchanged. -/
theorem dictLookup_depAdd (deps : List (String × List String)) (m x a : String) :
    dictLookup (depAdd deps m x) a =
      if a = m then
        some (match dictLookup deps m with
              | some ds => setInsert ds x
              | none => [x])
      else dictLookup deps a := by
  induction deps with
  | nil =>
    by_cases ham : a = m
    · rw [if_pos ham]
      unfold depAdd
      rw [dictLookup_cons_eq (m, [x]) [] a ham.symm]
      rfl
    · rw [if_neg ham]
      unfold depAdd
      rw [dictLookup_cons_ne (m, [x]) [] a fun h => ham h.symm]
  | cons p rest ih =>
    unfold depAdd
    by_cases hpm : p.1 = m
    · rw [if_pos (by simpa [beq_iff_eq] using hpm)]
      by_cases ham : a = m
      · rw [if_pos ham, dictLookup_cons_eq (m, setInsert p.2 x) rest a ham.symm,
          dictLookup_cons_eq p rest m hpm]
      · rw [if_neg ham, dictLookup_cons_ne (m, setInsert p.2 x) rest a fun h => ham h.symm,
          dictLookup_cons_ne p rest a fun h => ham ((hpm ▸ h : (m : String) = a)).symm]
    · rw [if_neg (by simpa [beq_iff_eq] using hpm)]
      by_cases hpa : p.1 = a
      · have ham : ¬ a = m := fun h => hpm (hpa.trans h)
        rw [if_neg ham, dictLookup_cons_eq p _ a hpa, dictLookup_cons_eq p rest a hpa]
      · rw [dictLookup_cons_ne p _ a hpa, ih, dictLookup_cons_ne p rest a hpa]
        by_cases ham : a = m
        · rw [if_pos ham, if_pos ham, dictLookup_cons_ne p rest m hpm]
        · rw [if_neg ham, if_neg ham]

/-- A string starts with itself. -/
theorem strStartsWith_self (s : String) : strStartsWith s s = true := by
  simp [strStartsWith, List.isPrefixOf_iff_prefix]

/-- The conjunctive membership check of code_auditor.py line 139 collapses
to exact membership: the generator tests every project module for equality
with the resolved name and, redundantly, for being a prefix of it. -/
theorem anyCheck_eq_contains (mods : List String) (r : String) :
    (mods.any fun pm => pm == r && strStartsWith r pm) = mods.contains r := by
  induction mods with
  | nil => rfl
  | cons m ms ih =>
    rw [List.any_cons, List.contains_cons]
    by_cases hm : m = r
    · subst hm
      rw [strStartsWith_self]
      simp
    · have h1 : (m == r) = false := by simpa [beq_iff_eq] using hm
      have h2 : (r == m) = false := by
        simpa [beq_iff_eq] using fun h : r = m => hm h.symm
      rw [h1, h2]
      simpa using ih

/-- The recorder _add_dependency with the line-139 membership check
rewritten as exact membership. -/
theorem addDependency_eq (st : Store) (m d : String) (l : Nat) :
    st.addDependency m d l =
      if st.project_modules.contains (resolveTarget m d l) = true then
        { st with dependencies := depAdd st.dependencies m (resolveTarget m d l) }
      else st := by
  simp only [Store.addDependency, anyCheck_eq_contains]

/-- C3: for every call of the dependency recorder, an edge a to b exists
afterwards iff it existed before or it is the new edge from the source
module to the resolved target and that target is exactly one of the known
project modules; when the resolved target is not a known module (in
particular when it is merely a proper prefix or an extension of one), the
store is left completely unchanged. -/
theorem dependency_edge_iff_exact_module_match (st : Store) (m d : String)
    (l : Nat) (a b : String) :
    (hasEdge (st.addDependency m d l) a b = true ↔
      (hasEdge st a b = true ∨
        (a = m ∧ b = resolveTarget m d l ∧ resolveTarget m d l ∈ st.project_modules))) ∧
    (resolveTarget m d l ∉ st.project_modules → st.addDependency m d l = st) := by
  by_cases hc : st.project_modules.contains (resolveTarget m d l) = true
  · have hmem : resolveTarget m d l ∈ st.project_modules := List.elem_iff.mp hc
    constructor
    · rw [addDependency_eq, if_pos hc]
      show (match dictLookup (depAdd st.dependencies m (resolveTarget m d l)) a with
            | some ds => ds.contains b
            | none => false) = true ↔ _
      rw [dictLookup_depAdd]
      by_cases ham : a = m
      · subst ham
        rw [if_pos rfl]
        unfold hasEdge
        cases hlk : dictLookup st.dependencies a with
        | some ds =>
          simp [setInsert_mem, Bool.or_eq_true_iff, beq_iff_eq, hmem]
        | none =>
          simp [List.contains_cons, beq_iff_eq, hmem]
      · rw [if_neg ham]
        unfold hasEdge
        simp [ham]
    · intro h
      exact absurd hmem h
  · have hnm : resolveTarget m d l ∉ st.project_modules := fun h => hc (List.elem_iff.mpr h)
    constructor
    · rw [addDependency_eq, if_neg hc]
      simp [hnm]
    · intro _
      rw [addDependency_eq, if_neg hc]

/-- Witness for C3: resolving a.b against a project that only knows the
module a.b.c (of which a.b is a proper prefix) records nothing and leaves
the store untouched. -/
theorem dependency_edge_iff_exact_module_match_witness :
    ({ emptyStore with project_modules := ["a.b.c"] } : Store).addDependency "x" "a.b" 0 =
      { emptyStore with project_modules := ["a.b.c"] } :=
  (dependency_edge_iff_exact_module_match
    { emptyStore with project_modules := ["a.b.c"] } "x" "a.b" 0 "x" "a.b").2
    (by decide)

/-- C10: the summary statistics are total on an empty analysis; with zero
recorded functions the guard selects the zero branch and the reported
average complexity is zero, with no division performed. -/
theorem avg_complexity_zero_on_empty (st : Store) (h : st.functions = []) :
    avgComplexity st = 0 := by
  unfold avgComplexity
  rw [h]
  simp

/-- Witness for C10 at the empty store. -/
theorem avg_complexity_zero_on_empty_witness : avgComplexity emptyStore = 0 :=
  avg_complexity_zero_on_empty emptyStore rfl

/-- C2 (amended): a module is appended to the entry-point list iff the file
parsed successfully and its raw text contains the literal execution guard;
in particular a file whose text contains the guard but whose parse failed is
not marked, because the guard test of line 110 sits inside the try block
after the parse of line 108. -/
theorem entry_point_iff_parsed_and_guard (st : Store) (path content : String)
    (parsed : Option Node) :
    (st.analyzeFile path content parsed).main_entry_points =
      st.main_entry_points ++
        (if parsed.isSome && containsSubstr content entryGuard then
          [pathToModule path]
        else []) := by
  cases parsed with
  | none => simp [Store.analyzeFile]
  | some tree =>
    unfold Store.analyzeFile
    by_cases hg : containsSubstr content entryGuard = true
    · obtain ⟨f, c, dd, h⟩ := foldlProcess_shape (pathToModule path) (Node.walk tree)
        { st with main_entry_points := st.main_entry_points ++ [pathToModule path] }
      simp only [hg, if_pos, Option.isSome_some, Bool.true_and, if_true]
      rw [h]
    · have hg' : containsSubstr content entryGuard = false := by
        simpa using hg
      obtain ⟨f, c, dd, h⟩ := foldlProcess_shape (pathToModule path) (Node.walk tree) st
      simp only [hg', Bool.false_eq_true, if_false, Option.isSome_some, Bool.true_and,
        List.append_nil]
      rw [h]

/-- Counterexample to C2 as stated: the text consisting of the guard line
alone (with its trailing colon it is a syntax error, since the suite is
missing, so the parse fails) contains the guard as a substring, yet the
module is not marked as an entry point. -/
theorem entry_point_counterexample :
    containsSubstr "if __name__ == \"__main__\":" entryGuard = true ∧
    (emptyStore.analyzeFile "m.py" "if __name__ == \"__main__\":" none).main_entry_points
      = [] := by
  exact ⟨rfl, rfl⟩

/-- A file with no parse outcome leaves the store untouched, so the
analysis loop may equivalently skip such files. -/
theorem foldlAnalyze_skip_unparsed (es : List Entry) :
    ∀ st : Store,
      es.foldl (fun s e => s.analyzeFile e.path e.content e.parsed) st =
        (es.filter fun e => e.parsed.isSome).foldl
          (fun s e => s.analyzeFile e.path e.content e.parsed) st := by
  induction es with
  | nil => intro st; rfl
  | cons e rest ih =>
    intro st
    cases hp : e.parsed with
    | none =>
      have hskip : st.analyzeFile e.path e.content e.parsed = st := by
        rw [hp]
        rfl
      have hfalse : e.parsed.isSome = false := by rw [hp]; rfl
      rw [List.foldl_cons, hskip, List.filter_cons, hfalse]
      simp only [Bool.false_eq_true, if_false]
      exact ih st
    | some tree =>
      have htrue : e.parsed.isSome = true := by rw [hp]; rfl
      rw [List.foldl_cons, List.filter_cons, htrue]
      simp only [if_true]
      rw [List.foldl_cons]
      exact ih _

/-- Discovery appends exactly the source-extension files to python_files. -/
theorem discover_python_files (es : List Entry) :
    ∀ st : Store,
      (Store.discover st es).python_files =
        st.python_files ++ (es.filter fun e => isPyFile e.path).map Entry.path := by
  induction es with
  | nil => intro st; simp [Store.discover]
  | cons e rest ih =>
    intro st
    unfold Store.discover at *
    rw [List.foldl_cons, List.filter_cons]
    by_cases hpy : isPyFile e.path = true
    · rw [if_pos hpy, hpy]
      simp only [if_true]
      rw [ih]
      simp
    · have hpy' : isPyFile e.path = false := by simpa using hpy
      rw [hpy']
      simp only [Bool.false_eq_true, if_false]
      by_cases hdata : isDataFile e.path = true
      · rw [if_pos hdata, ih]
      · rw [if_neg hdata, ih]

/-- Discovery appends exactly the recognized data files (which are the
non-source files with a recognized extension) to data_files. -/
theorem discover_data_files (es : List Entry) :
    ∀ st : Store,
      (Store.discover st es).data_files =
        st.data_files ++
          (es.filter fun e => !isPyFile e.path && isDataFile e.path).map Entry.path := by
  induction es with
  | nil => intro st; simp [Store.discover]
  | cons e rest ih =>
    intro st
    unfold Store.discover at *
    rw [List.foldl_cons, List.filter_cons]
    by_cases hpy : isPyFile e.path = true
    · rw [if_pos hpy, hpy]
      simp only [Bool.not_true, Bool.false_and, Bool.false_eq_true, if_false]
      rw [ih]
    · have hpy' : isPyFile e.path = false := by simpa using hpy
      rw [hpy']
      simp only [Bool.false_eq_true, if_false, Bool.not_false, Bool.true_and]
      by_cases hdata : isDataFile e.path = true
      · rw [if_pos hdata, hdata]
        simp only [if_true]
        rw [ih]
        simp
      · have hdata' : isDataFile e.path = false := by simpa using hdata
        rw [if_neg hdata, hdata']
        simp only [Bool.false_eq_true, if_false]
        rw [ih]

/-- C8: parse failures are non-fatal and contribute nothing: analyzing a
file with a failed parse is the identity on the store, the whole pass
equals the pass that skips all unparseable files (so every other file's
analysis is unaffected and no failure propagates), and the discovered
python_files list, which feeds the files-analyzed count, still lists every
source file regardless of its parse outcome. -/
theorem parse_failure_nonfatal (es : List Entry) :
    (∀ (st : Store) (p c : String), st.analyzeFile p c none = st) ∧
    (runAudit es).python_files = (es.filter fun e => isPyFile e.path).map Entry.path ∧
    runAudit es = runAuditParsedOnly es := by
  refine ⟨fun st p c => rfl, ?_, ?_⟩
  · simp only [runAudit]
    obtain ⟨f, c, dd, ep, h⟩ := foldlAnalyze_shape
      (es.filter fun e => isPyFile e.path) (Store.discover emptyStore es)
    rw [h]
    show (Store.discover emptyStore es).python_files = _
    rw [discover_python_files]
    rfl
  · simp only [runAudit, runAuditParsedOnly]
    exact foldlAnalyze_skip_unparsed _ _

mutual
/-- The branch-kind nodes picked out of a subtree walk are counted exactly
by the structural count branchTotal. -/
theorem walk_filter_isBranch (n : Node) :
    ((Node.walk n).filter isBranch).length = branchTotal n := by
  cases n with
  | module b =>
    simp [Node.walk, isBranch, List.filter_cons, branchTotal,
      walkList_filter_isBranch b]
  | funcDef nm b =>
    simp [Node.walk, isBranch, List.filter_cons, branchTotal,
      walkList_filter_isBranch b]
  | classDef nm b =>
    simp [Node.walk, isBranch, List.filter_cons, branchTotal,
      walkList_filter_isBranch b]
  | ifStmt b o =>
    simp [Node.walk, isBranch, List.filter_cons, List.filter_append,
      branchTotal, walkList_filter_isBranch b, walkList_filter_isBranch o]
    omega
  | forStmt b o =>
    simp [Node.walk, isBranch, List.filter_cons, List.filter_append,
      branchTotal, walkList_filter_isBranch b, walkList_filter_isBranch o]
    omega
  | whileStmt b o =>
    simp [Node.walk, isBranch, List.filter_cons, List.filter_append,
      branchTotal, walkList_filter_isBranch b, walkList_filter_isBranch o]
    omega
  | tryStmt b h o f =>
    simp [Node.walk, isBranch, List.filter_cons, List.filter_append,
      branchTotal, walkList_filter_isBranch b, walkList_filter_isBranch h,
      walkList_filter_isBranch o, walkList_filter_isBranch f]
    omega
  | exceptHandler b =>
    simp [Node.walk, isBranch, List.filter_cons, branchTotal,
      walkList_filter_isBranch b]
  | withStmt b =>
    simp [Node.walk, isBranch, List.filter_cons, branchTotal,
      walkList_filter_isBranch b]
    omega
  | importStmt ns => rfl
  | importFrom m ns l => rfl
  | passStmt => rfl
  | otherStmt => rfl
/-- List version of the walk count. -/
theorem walkList_filter_isBranch (ns : NodeList) :
    ((NodeList.walkList ns).filter isBranch).length = ns.branchTotalList := by
  cases ns with
  | nil => rfl
  | cons n tl =>
    simp [NodeList.walkList, List.filter_append, NodeList.branchTotalList,
      walk_filter_isBranch n, walkList_filter_isBranch tl]
end

/-- C4: the recorded complexity of any function-definition subtree is one
plus the number of conditional, for-loop, while-loop, exception-handling
and scoped-resource nodes anywhere within it, nested function and class
bodies included (branchTotal recurses through funcDef and classDef bodies);
a subtree containing none of these has complexity exactly one. -/
theorem complexity_eq_branch_count_plus_one (n : Node) :
    complexity n = branchTotal n + 1 ∧ (branchTotal n = 0 → complexity n = 1) := by
  constructor
  · unfold complexity
    rw [walk_filter_isBranch]
  · intro h
    unfold complexity
    rw [walk_filter_isBranch, h]

/-- Witness for C4: a function whose body is a single pass statement has no
branch nodes and complexity exactly one. -/
theorem complexity_eq_branch_count_plus_one_witness :
    complexity (Node.funcDef "f" (NodeList.ofList [Node.passStmt])) = 1 :=
  (complexity_eq_branch_count_plus_one
    (Node.funcDef "f" (NodeList.ofList [Node.passStmt]))).2 rfl

/-- Counterexample to C1 as stated: in the claimed two-file scenario the
dependency map stays empty, so no edge pkg.b to pkg.a is recorded — the
relative import from-dot-import-a has no module text, and line 126 of
code_auditor.py forwards a from-import to the resolver only when its module
text is present. -/
theorem scenario_no_edge_counterexample :
    hasEdge (runAudit scenarioC1) "pkg.b" "pkg.a" = false ∧
    (runAudit scenarioC1).dependencies = [] := by
  exact ⟨rfl, rfl⟩

/-- C1 (amended): the scenario produces exactly the modules pkg.a and pkg.b
and the function record pkg.a.f with complexity two, but no dependency edge
at all: the relative import carries no module text and is skipped. -/
theorem scenario_modules_function_no_edges :
    (runAudit scenarioC1).project_modules = ["pkg.a", "pkg.b"] ∧
    dictLookup (runAudit scenarioC1).functions "pkg.a.f" = some 2 ∧
    (runAudit scenarioC1).dependencies = [] := by
  exact ⟨rfl, rfl, rfl⟩

/-- The function map after dispatching one node: unchanged, unless the node
is a function definition, in which case its keyed complexity is assigned. -/
theorem processNode_functions (st : Store) (m : String) (n : Node) :
    (st.processNode m n).functions = st.functions ∨
    ∃ nm b, n = Node.funcDef nm b ∧
      (st.processNode m n).functions =
        dictInsert st.functions (m ++ "." ++ nm) (complexity (Node.funcDef nm b)) := by
  cases n with
  | funcDef nm b => exact Or.inr ⟨nm, b, rfl, rfl⟩
  | classDef nm b => exact Or.inl rfl
  | importStmt ns =>
    obtain ⟨dd, h⟩ := foldlAddDep_shape m ns st
    exact Or.inl (by rw [show st.processNode m (Node.importStmt ns) =
      ns.foldl (fun s a => s.addDependency m a 0) st from rfl, h])
  | importFrom mo ns l =>
    cases mo with
    | none => exact Or.inl rfl
    | some dep =>
      obtain ⟨dd, h⟩ := addDependency_shape st m dep l
      exact Or.inl (by rw [show st.processNode m (Node.importFrom (some dep) ns l) =
        st.addDependency m dep l from rfl, h])
  | module b => exact Or.inl rfl
  | ifStmt b o => exact Or.inl rfl
  | forStmt b o => exact Or.inl rfl
  | whileStmt b o => exact Or.inl rfl
  | tryStmt b h o f => exact Or.inl rfl
  | exceptHandler b => exact Or.inl rfl
  | withStmt b => exact Or.inl rfl
  | passStmt => exact Or.inl rfl
  | otherStmt => exact Or.inl rfl

/-- Dispatching a node preserves the fact that a key is bound to a positive
complexity: every value the dispatcher ever assigns is a complexity, and
every complexity is at least one. -/
theorem processNode_fn_pos (st : Store) (m : String) (n : Node) (k : String)
    (h : ∃ c, dictLookup st.functions k = some c ∧ 1 ≤ c) :
    ∃ c, dictLookup (st.processNode m n).functions k = some c ∧ 1 ≤ c := by
  rcases processNode_functions st m n with heq | ⟨nm, b, _, heq⟩
  · rw [heq]
    exact h
  · rw [heq, dictLookup_dictInsert]
    by_cases hk : k = m ++ "." ++ nm
    · refine ⟨complexity (Node.funcDef nm b), by rw [if_pos hk], ?_⟩
      unfold complexity
      omega
    · rw [if_neg hk]
      exact h

/-- The whole node loop preserves a positive binding of any key. -/
theorem foldlProcess_fn_pos (m : String) (ns : List Node) (k : String) :
    ∀ st : Store, (∃ c, dictLookup st.functions k = some c ∧ 1 ≤ c) →
      ∃ c, dictLookup ((ns.foldl (fun s n => s.processNode m n) st)).functions k
        = some c ∧ 1 ≤ c := by
  induction ns with
  | nil => exact fun st h => h
  | cons n rest ih =>
    intro st h
    rw [List.foldl_cons]
    exact ih _ (processNode_fn_pos st m n k h)

/-- C7 (amended): for every function-definition node anywhere in a parsed
tree, the analysis leaves a function record under the key module.name whose
complexity is at least one.  Definitions that share a name within one module
share this single dict key — the later assignment overwrites the earlier —
so the record exists per distinct name rather than per definition node. -/
theorem function_record_exists_per_name (st : Store) (path content : String)
    (tree : Node) (nm : String) (b : NodeList)
    (hmem : Node.funcDef nm b ∈ Node.walk tree) :
    ∃ c, dictLookup ((st.analyzeFile path content (some tree)).functions)
        (pathToModule path ++ "." ++ nm) = some c ∧ 1 ≤ c := by
  obtain ⟨l1, l2, hsplit⟩ := List.append_of_mem hmem
  show ∃ c, dictLookup (((Node.walk tree).foldl
      (fun s n => s.processNode (pathToModule path) n)
      (if containsSubstr content entryGuard then
        { st with main_entry_points := st.main_entry_points ++ [pathToModule path] }
      else st)).functions) (pathToModule path ++ "." ++ nm) = some c ∧ 1 ≤ c
  rw [hsplit, List.foldl_append, List.foldl_cons]
  apply foldlProcess_fn_pos
  refine ⟨complexity (Node.funcDef nm b), ?_, ?_⟩
  · show dictLookup (dictInsert _ (pathToModule path ++ "." ++ nm)
      (complexity (Node.funcDef nm b))) (pathToModule path ++ "." ++ nm) = _
    rw [dictLookup_dictInsert, if_pos rfl]
  · unfold complexity
    omega

/-- Witness for C7 (amended): a module with one function f. -/
theorem function_record_exists_per_name_witness :
    ∃ c, dictLookup ((emptyStore.analyzeFile "m.py" "" (some (Node.module
        (NodeList.ofList [Node.funcDef "f" (NodeList.ofList [Node.passStmt])])))).functions)
      (pathToModule "m.py" ++ "." ++ "f") = some c ∧ 1 ≤ c :=
  function_record_exists_per_name emptyStore "m.py" ""
    (Node.module (NodeList.ofList [Node.funcDef "f" (NodeList.ofList [Node.passStmt])]))
    "f" (NodeList.ofList [Node.passStmt]) (List.Mem.tail _ (List.Mem.head _))

/-- Counterexample to C7 as stated: a module with two classes each defining
a method f contains two function-definition nodes, yet only one function
record exists afterwards — both definitions share the dict key m.f. -/
theorem function_record_collision_counterexample :
    ((Node.walk (Node.module (NodeList.ofList
        [Node.classDef "A" (NodeList.ofList [Node.funcDef "f" (NodeList.ofList [Node.passStmt])]),
         Node.classDef "B" (NodeList.ofList [Node.funcDef "f" (NodeList.ofList [Node.passStmt])])]))).filter
      isFuncDef).length = 2 ∧
    ((emptyStore.analyzeFile "m.py" "" (some (Node.module (NodeList.ofList
        [Node.classDef "A" (NodeList.ofList [Node.funcDef "f" (NodeList.ofList [Node.passStmt])]),
         Node.classDef "B" (NodeList.ofList [Node.funcDef "f" (NodeList.ofList [Node.passStmt])])])))).functions).length
      = 1 := by
  exact ⟨rfl, rfl⟩

/-- Left cancellation for string concatenation. -/
theorem strAppend_left_cancel (a b c : String) (h : a ++ b = a ++ c) : b = c := by
  have hd : (a ++ b).data = (a ++ c).data := congrArg String.data h
  rw [String.data_append, String.data_append] at hd
  have hbc := List.append_cancel_left hd
  cases b with
  | mk bd =>
    cases c with
    | mk cd =>
      exact congrArg String.mk (by simpa using hbc)

/-- The class map after dispatching one node: unchanged, unless the node is
a class definition, in which case its keyed record is assigned. -/
theorem processNode_classes (st : Store) (m : String) (n : Node) :
    (st.processNode m n).classes = st.classes ∨
    ∃ nm b, n = Node.classDef nm b ∧
      (st.processNode m n).classes =
        dictInsert st.classes (m ++ "." ++ nm) ⟨b.methodNames, isStrategyName nm m⟩ := by
  cases n with
  | classDef nm b => exact Or.inr ⟨nm, b, rfl, rfl⟩
  | funcDef nm b => exact Or.inl rfl
  | importStmt ns =>
    obtain ⟨dd, h⟩ := foldlAddDep_shape m ns st
    exact Or.inl (by rw [show st.processNode m (Node.importStmt ns) =
      ns.foldl (fun s a => s.addDependency m a 0) st from rfl, h])
  | importFrom mo ns l =>
    cases mo with
    | none => exact Or.inl rfl
    | some dep =>
      obtain ⟨dd, h⟩ := addDependency_shape st m dep l
      exact Or.inl (by rw [show st.processNode m (Node.importFrom (some dep) ns l) =
        st.addDependency m dep l from rfl, h])
  | module b => exact Or.inl rfl
  | ifStmt b o => exact Or.inl rfl
  | forStmt b o => exact Or.inl rfl
  | whileStmt b o => exact Or.inl rfl
  | tryStmt b h o f => exact Or.inl rfl
  | exceptHandler b => exact Or.inl rfl
  | withStmt b => exact Or.inl rfl
  | passStmt => exact Or.inl rfl
  | otherStmt => exact Or.inl rfl

/-- Dispatching a node preserves the fact that the class record keyed by a
given class name carries the flag the strategy test computes for it: every
record the dispatcher assigns under the key m.name carries exactly that
flag, because equal keys with a fixed module force equal class names. -/
theorem processNode_cls_flag (st : Store) (m : String) (n : Node) (nm : String)
    (h : ∃ info, dictLookup st.classes (m ++ "." ++ nm) = some info ∧
      info.is_strategy = isStrategyName nm m) :
    ∃ info, dictLookup (st.processNode m n).classes (m ++ "." ++ nm) = some info ∧
      info.is_strategy = isStrategyName nm m := by
  rcases processNode_classes st m n with heq | ⟨nm2, b, _, heq⟩
  · rw [heq]
    exact h
  · rw [heq, dictLookup_dictInsert]
    by_cases hk : m ++ "." ++ nm = m ++ "." ++ nm2
    · have hnm : nm = nm2 := strAppend_left_cancel (m ++ ".") nm nm2 hk
      subst hnm
      exact ⟨⟨b.methodNames, isStrategyName nm m⟩, by rw [if_pos hk], rfl⟩
    · rw [if_neg hk]
      exact h

/-- The whole node loop preserves the keyed strategy flag. -/
theorem foldlProcess_cls_flag (m : String) (ns : List Node) (nm : String) :
    ∀ st : Store,
      (∃ info, dictLookup st.classes (m ++ "." ++ nm) = some info ∧
        info.is_strategy = isStrategyName nm m) →
      ∃ info, dictLookup ((ns.foldl (fun s n => s.processNode m n) st)).classes
          (m ++ "." ++ nm) = some info ∧ info.is_strategy = isStrategyName nm m := by
  induction ns with
  | nil => exact fun st h => h
  | cons n rest ih =>
    intro st h
    rw [List.foldl_cons]
    exact ih _ (processNode_cls_flag st m n nm h)

/-- C5 (amended): the stored strategy flag of a class record is true iff the
lowercased class name contains the substring strategy or the module name
contains the substring strategies anywhere (not only as a dotted path
component, and with no separate test for the nine-letter form strategies in
the class name, which does not contain strategy as a substring); every
class-definition node at any depth leaves a record under module.ClassName
carrying exactly this flag.  The three examples of the claim all hold. -/
theorem class_strategy_flag_characterization (name mod : String) (st : Store)
    (path content : String) (tree : Node) (b : NodeList) :
    (isStrategyName name mod = true ↔
      (containsSubstr (strToLower name) "strategy" = true ∨
        containsSubstr mod "strategies" = true)) ∧
    (Node.classDef name b ∈ Node.walk tree →
      ∃ info, dictLookup ((st.analyzeFile path content (some tree)).classes)
          (pathToModule path ++ "." ++ name) = some info ∧
        info.is_strategy = isStrategyName name (pathToModule path)) ∧
    isStrategyName "Helper" "strategies.optimizer" = true ∧
    isStrategyName "FooStrategy" "x.y" = true ∧
    isStrategyName "Foo" "x.y" = false := by
  refine ⟨by simp [isStrategyName], ?_, by decide, by decide, by decide⟩
  intro hmem
  obtain ⟨l1, l2, hsplit⟩ := List.append_of_mem hmem
  show ∃ info, dictLookup (((Node.walk tree).foldl
      (fun s n => s.processNode (pathToModule path) n)
      (if containsSubstr content entryGuard then
        { st with main_entry_points := st.main_entry_points ++ [pathToModule path] }
      else st)).classes) (pathToModule path ++ "." ++ name) = some info ∧
      info.is_strategy = isStrategyName name (pathToModule path)
  rw [hsplit, List.foldl_append, List.foldl_cons]
  apply foldlProcess_cls_flag
  refine ⟨ClassInfo.mk b.methodNames (isStrategyName name (pathToModule path)), ?_, rfl⟩
  show dictLookup (dictInsert _ (pathToModule path ++ "." ++ name)
    (ClassInfo.mk b.methodNames (isStrategyName name (pathToModule path))))
      (pathToModule path ++ "." ++ name) = _
  rw [dictLookup_dictInsert, if_pos rfl]

/-- Witness for C5 (amended): a module containing one class FooStrategy. -/
theorem class_strategy_flag_characterization_witness :
    ∃ info, dictLookup ((emptyStore.analyzeFile "m.py" "" (some (Node.module
        (NodeList.ofList [Node.classDef "FooStrategy" NodeList.nil])))).classes)
      (pathToModule "m.py" ++ "." ++ "FooStrategy") = some info ∧
      info.is_strategy = isStrategyName "FooStrategy" (pathToModule "m.py") :=
  (class_strategy_flag_characterization "FooStrategy" "x.y" emptyStore "m.py" ""
    (Node.module (NodeList.ofList [Node.classDef "FooStrategy" NodeList.nil]))
    NodeList.nil).2.1 (List.Mem.tail _ (List.Mem.head _))

/-- Counterexample to C5 as stated: a class named Strategies in module x.y
satisfies the claim's condition (its name contains the case-insensitive
substring strategies) but the code does not flag it, since the code only
looks for strategy in the lowercased name; conversely a class named Helper
in the single-segment module xstrategiesy is flagged by the code through
the plain substring test although strategies is not a path component. -/
theorem class_strategy_flag_counterexample :
    specIsStrategy "Strategies" "x.y" = true ∧
    isStrategyName "Strategies" "x.y" = false ∧
    specIsStrategy "Helper" "xstrategiesy" = false ∧
    isStrategyName "Helper" "xstrategiesy" = true := by
  exact ⟨by decide, by decide, by decide, by decide⟩

/-- C6: relative resolution with a positive level decomposes the source
module into segments, of which the last level-many (or all, when the level
exceeds the segment count) form a dropped suffix; the resolved name joins
the remaining base with the raw target when the target is non-empty, or the
base alone otherwise.  When the level reaches or exceeds the segment count
the base is empty, and being a total function the resolution never raises.
Concretely, a level-two import of x inside a.b.c resolves to a.x, and when
a.x is not a known module the recorder leaves the store unchanged. -/
theorem relative_resolution_drops_trailing_segments (m d : String) (l : Nat)
    (hl : 0 < l) :
    splitDots m =
      (splitDots m).take ((splitDots m).length - l) ++
        (splitDots m).drop ((splitDots m).length - l) ∧
    ((splitDots m).drop ((splitDots m).length - l)).length = min l (splitDots m).length ∧
    resolveTarget m d l =
      joinDots ((splitDots m).take ((splitDots m).length - l) ++
        (if d == "" then [] else [d])) ∧
    ((splitDots m).length ≤ l → (splitDots m).take ((splitDots m).length - l) = []) ∧
    resolveTarget "a.b.c" "x" 2 = "a.x" ∧
    ({ emptyStore with project_modules := ["a.b.c", "a.b.x"] } : Store).addDependency
        "a.b.c" "x" 2 =
      { emptyStore with project_modules := ["a.b.c", "a.b.x"] } := by
  refine ⟨(List.take_append_drop _ _).symm, ?_, ?_, ?_, rfl, rfl⟩
  · rw [List.length_drop]
    omega
  · simp only [resolveTarget, if_pos hl]
  · intro h
    rw [Nat.sub_eq_zero_of_le h, List.take_zero]

/-- Witness for C6 at level two inside a.b.c. -/
theorem relative_resolution_drops_trailing_segments_witness :
    0 < 2 ∧ resolveTarget "a.b.c" "x" 2 = "a.x" :=
  ⟨by decide,
    (relative_resolution_drops_trailing_segments "a.b.c" "x" 2 (by decide)).2.2.2.2.1⟩

/-- C9 (amended): discovery records a DataFileRecord for exactly the
discovered non-source files with a recognized extension, and the kind is
inferred from the file name by substring tests in the priority order
tabular, spreadsheet, config, structured-data, the JSON label being the
fallback when no other pattern occurs in the name. -/
theorem data_file_records_and_kind_priority (es : List Entry) (name : String) :
    (runAudit es).data_files =
      (es.filter fun e => !isPyFile e.path && isDataFile e.path).map Entry.path ∧
    (containsSubstr name ".csv" = true → dataFileKind name = "Tabular Data") ∧
    (containsSubstr name ".csv" = false → containsSubstr name ".xlsx" = true →
      dataFileKind name = "Excel Sheet") ∧
    (containsSubstr name ".csv" = false → containsSubstr name ".xlsx" = false →
      containsSubstr name ".yaml" = true → dataFileKind name = "Config") ∧
    (containsSubstr name ".csv" = false → containsSubstr name ".xlsx" = false →
      containsSubstr name ".yaml" = false → dataFileKind name = "JSON Data") := by
  refine ⟨?_, ?_, ?_, ?_, ?_⟩
  · simp only [runAudit]
    obtain ⟨f, c, dd, ep, h⟩ := foldlAnalyze_shape
      (es.filter fun e => isPyFile e.path) (Store.discover emptyStore es)
    rw [h]
    show (Store.discover emptyStore es).data_files = _
    rw [discover_data_files]
    rfl
  · intro h1
    simp [dataFileKind, h1]
  · intro h1 h2
    simp [dataFileKind, h1, h2]
  · intro h1 h2 h3
    simp [dataFileKind, h1, h2, h3]
  · intro h1 h2 h3
    simp [dataFileKind, h1, h2, h3]

/-- Witness for C9 (amended): a plain xlsx file is a spreadsheet. -/
theorem data_file_records_and_kind_priority_witness :
    dataFileKind "a.xlsx" = "Excel Sheet" :=
  (data_file_records_and_kind_priority [] "a.xlsx").2.2.1 (by decide) (by decide)

/-- Counterexample to C9 as stated: the file a.yaml.json has the
structured-data extension json, and the claim's priority (structured-data
before config) would label it JSON Data, but the code tests the yaml
pattern first and labels it Config; the file is nevertheless recognized and
recorded at discovery. -/
theorem data_file_kind_counterexample :
    dataFileKind "a.yaml.json" = "Config" ∧
    specDataFileKind "a.yaml.json" = "JSON Data" ∧
    (Store.discover emptyStore
        [{ path := "a.yaml.json", content := "", parsed := none }]).data_files =
      ["a.yaml.json"] := by
  exact ⟨rfl, rfl, rfl⟩
